import Mathlib

/-!
Shallow embedding of `src/him_network.rs` (the active `HimNetwork` impl,
lines 1-354; the remainder of the file is a commented-out earlier variant).

Modelling conventions:
* `f32` values are modelled as exact rationals `ℚ`; `f32::exp` is an
  explicit function parameter `exp : ℚ → ℚ` (real `exp` is positive, which
  theorems take as a hypothesis where needed); `f32::MIN` is the exact
  rational value of that constant.
* Rust `Vec` indexing panics become `Option`: a returned `none` models a
  panic, `some` models normal completion.
* Matrices are `List (List ℚ)` in row-major order exactly as in the source
  (`x1` rows are examples; a weight matrix is a list of node rows).
-/

abbrev Mat : Type := List (List ℚ)

/-- Option-valued map modelling a Rust loop that builds a vector but may
panic on an out-of-bounds index while processing an element. -/
def mapOpt (f : α → Option β) : List α → Option (List β)
  | [] => some []
  | a :: as =>
    match f a with
    | none => none
    | some b =>
      match mapOpt f as with
      | none => none
      | some bs => some (b :: bs)

/-- Pairwise traversal driven by the first list: the loop runs over the
first list's indices and panics (`none`) when the second list is shorter. -/
def zipOpt (f : α → β → Option γ) : List α → List β → Option (List γ)
  | [], _ => some []
  | _ :: _, [] => none
  | a :: as, b :: bs =>
    match f a b with
    | none => none
    | some c =>
      match zipOpt f as bs with
      | none => none
      | some cs => some (c :: cs)

/-- `sum += w[j][k] * x[i][k]` for `k in 0..w[j].len()`: the loop bound is
the weight row, so it panics when the input row is shorter. -/
def dotProd : List ℚ → List ℚ → Option ℚ
  | [], _ => some 0
  | _ :: _, [] => none
  | a :: as, b :: bs =>
    match dotProd as bs with
    | none => none
    | some s => some (a * b + s)

/-- `HimNetwork::multiply_matrix` (him_network.rs:220-233): result has
`x.len()` rows and `w.len()` columns, `result[i][j] = Σ_k w[j][k]*x[i][k]`
with `k` ranging over the weight row. -/
def multiply_matrix (w x : Mat) : Option Mat :=
  mapOpt (fun xi => mapOpt (fun wj => dotProd wj xi) w) x

/-- One row of `add_bias`: `out[i][j] += bias[j]` for `j` over the row,
panicking when the bias vector is shorter than the row. -/
def addRow : List ℚ → List ℚ → Option (List ℚ)
  | [], _ => some []
  | _ :: _, [] => none
  | m :: ms, b :: bs =>
    match addRow ms bs with
    | none => none
    | some r => some ((m + b) :: r)

/-- `HimNetwork::add_bias` (him_network.rs:236-244). -/
def add_bias (mat : Mat) (bias : List ℚ) : Option Mat :=
  mapOpt (fun r => addRow r bias) mat

/-- `HimNetwork::relu` (him_network.rs:247-255): elementwise
`if val > 0.0 { val } else { 0.0 }`. -/
def relu (z : Mat) : Mat :=
  z.map (fun row => row.map (fun v => if v > 0 then v else 0))

/-- `HimNetwork::relu_deriv` (him_network.rs:127-131). -/
def relu_deriv (z : Mat) : Mat :=
  z.map (fun row => row.map (fun v => if v > 0 then (1 : ℚ) else 0))

/-- The exact rational value of `f32::MIN`, the seed of the row-maximum
fold in `HimNetwork::softmax`. -/
def f32MIN : ℚ := -(2 ^ 128 - 2 ^ 104)

/-- One row of `HimNetwork::softmax`: fold the maximum from `f32::MIN`,
exponentiate shifted entries, divide by the row sum of exponentials. -/
def softmaxRow (exp : ℚ → ℚ) (row : List ℚ) : List ℚ :=
  let m := row.foldl max f32MIN
  let exps := row.map (fun v => exp (v - m))
  let s := exps.sum
  exps.map (fun e => e / s)

/-- `HimNetwork::softmax` (him_network.rs:258-269): allocates a
`z.len() × z[0].len()` zero matrix (panicking on empty `z`), then writes
each row's softmax into its first `row.len()` columns (panicking when a
row is longer than `z[0]`). -/
def softmax (exp : ℚ → ℚ) (z : Mat) : Option Mat :=
  match z with
  | [] => none
  | z0 :: _ =>
    mapOpt (fun row =>
      if row.length ≤ z0.length then
        some (softmaxRow exp row ++ List.replicate (z0.length - row.length) 0)
      else none) z

/-- `HimNetwork::one_hot_encode` (him_network.rs:116-124): silently leaves
the row all-zero when the label is out of range (no panic, no error). -/
def one_hot_encode (y : List ℕ) (classes : ℕ) : Mat :=
  y.map (fun label =>
    if label < classes then
      (List.range classes).map (fun j => if j = label then (1 : ℚ) else 0)
    else List.replicate classes 0)

/-- `HimNetwork::transpose` (him_network.rs:304-317): returns `[]` for an
empty matrix or empty first row, otherwise reads `m[i][j]` for every
`i < m.len()`, `j < m[0].len()` (panicking when a later row is shorter
than the first). -/
def transpose (m : Mat) : Option Mat :=
  match m with
  | [] => some []
  | m0 :: _ =>
    if m0.length = 0 then some []
    else if m.all (fun r => m0.length ≤ r.length) then
      some ((List.range m0.length).map (fun j => m.map (fun r => r.getD j 0)))
    else none

/-- `HimNetwork::scale_matrix` (him_network.rs:293-301). -/
def scale_matrix (mat : Mat) (scalar : ℚ) : Mat :=
  mat.map (fun row => row.map (fun v => v * scalar))

/-- `HimNetwork::sum_rows` (him_network.rs:283-290): per-row sum times the
factor. -/
def sum_rows (matrix : Mat) (factor : ℚ) : List ℚ :=
  matrix.map (fun row => row.sum * factor)

/-- `HimNetwork::elementwise_multiply` (him_network.rs:272-280): reads
`a[0]` (panicking on empty `a`), allocates `a.len() × a[0].len()` zeros and
writes `a[i][j]*b[i][j]` for `j < a[i].len()` (panicking when a row of `a`
is longer than `a[0]` or `b` does not cover `a`). -/
def elementwise_multiply (a b : Mat) : Option Mat :=
  match a with
  | [] => none
  | a0 :: _ =>
    zipOpt (fun r t =>
      if r.length ≤ a0.length then
        match zipOpt (fun x y => some (x * y)) r t with
        | none => none
        | some p => some (p ++ List.replicate (a0.length - r.length) 0)
      else none) a b

/-- One row of the elementwise subtraction building `dZ4`
(him_network.rs:140-145). -/
def subRow : List ℚ → List ℚ → Option (List ℚ)
  | [], _ => some []
  | _ :: _, [] => none
  | a :: as, b :: bs =>
    match subRow as bs with
    | none => none
    | some r => some ((a - b) :: r)

/-- The in-place loop `dZ4[i][j] -= one_hot_y[i][j]` over the shape of the
first matrix, panicking when the second does not cover it. -/
def subMat : Mat → Mat → Option Mat
  | [], _ => some []
  | _ :: _, [] => none
  | r :: rs, t :: ts =>
    match subRow r t with
    | none => none
    | some r' =>
      match subMat rs ts with
      | none => none
      | some rs' => some (r' :: rs')

/-- The network state (him_network.rs:3-11). -/
structure HimNetwork where
  w : List Mat
  x1 : Mat
  b : List (List ℚ)
  z : List Mat
  a : List Mat
  dW : List Mat
  db : List (List ℚ)
  deriving DecidableEq

/-- `HimNetwork::new` (him_network.rs:14-63). -/
def himNew : HimNetwork where
  x1 := List.replicate 10000 (List.replicate 9 0)
  w := [List.replicate 81 (List.replicate 9 0),
        List.replicate 81 (List.replicate 81 0),
        List.replicate 81 (List.replicate 81 0),
        List.replicate 81 (List.replicate 81 0),
        List.replicate 81 (List.replicate 9 0)]
  b := [List.replicate 81 0, List.replicate 81 0, List.replicate 81 0,
        List.replicate 81 0, List.replicate 9 0]
  z := [List.replicate 81 (List.replicate 9 0),
        List.replicate 10000 (List.replicate 81 0),
        List.replicate 10000 (List.replicate 81 0),
        List.replicate 10000 (List.replicate 81 0),
        List.replicate 10000 (List.replicate 9 0)]
  a := [List.replicate 81 (List.replicate 9 0),
        List.replicate 10000 (List.replicate 81 0),
        List.replicate 10000 (List.replicate 81 0),
        List.replicate 10000 (List.replicate 81 0),
        List.replicate 10000 (List.replicate 9 0)]
  dW := [List.replicate 81 (List.replicate 9 0),
         List.replicate 81 (List.replicate 81 0),
         List.replicate 81 (List.replicate 81 0),
         List.replicate 81 (List.replicate 81 0),
         List.replicate 81 (List.replicate 9 0)]
  db := [List.replicate 81 0, List.replicate 81 0, List.replicate 81 0,
         List.replicate 81 0, List.replicate 9 0]

/-- `self.z[i] = v`: Rust panics when the index is out of range. -/
def setIdx (l : List α) (i : ℕ) (v : α) : Option (List α) :=
  if i < l.length then some (l.set i v) else none

/-- The four stores `z[1] = ..`, .., `z[4] = ..` done by forward
propagation (likewise for `a`). -/
def setIdx4 (l : List Mat) (m1 m2 m3 m4 : Mat) : Option (List Mat) := do
  setIdx (← setIdx (← setIdx (← setIdx l 1 m1) 2 m2) 3 m3) 4 m4

/-- One layer's pre-activation `add_bias(multiply_matrix(w, x), b)` as
written at him_network.rs:87-111, with the weight/bias lookups themselves
able to panic. -/
def layerZ (ow : Option Mat) (x : Mat) (ob : Option (List ℚ)) : Option Mat := do
  add_bias (← multiply_matrix (← ow) x) (← ob)

/-- `HimNetwork::forward_propagation` (him_network.rs:85-113). -/
def forward_propagation (exp : ℚ → ℚ) (s : HimNetwork) : Option HimNetwork := do
  let z1 ← layerZ s.w[1]? s.x1 s.b[1]?
  let a1 := relu z1
  let z2 ← layerZ s.w[2]? a1 s.b[2]?
  let a2 := relu z2
  let z3 ← layerZ s.w[3]? a2 s.b[3]?
  let a3 := relu z3
  let z4 ← layerZ s.w[4]? a3 s.b[4]?
  let a4 ← softmax exp z4
  let zn ← setIdx4 s.z z1 z2 z3 z4
  let an ← setIdx4 s.a a1 a2 a3 a4
  pure { s with z := zn, a := an }

/-- The output-layer part of `backward_propagation` (him_network.rs:135-152):
`dZ4 = A[4] - one_hot(y)`, `dW4 = (1/m) dZ4 · A[3]^T`,
`db4 = (1/m) sum_rows(dZ4)`.  Returns `(inv_m, dZ4, dW4, db4)`. -/
def backOut (y : List ℕ) (s : HimNetwork) : Option (ℚ × Mat × Mat × List ℚ) := do
  let inv_m : ℚ := 1 / (s.x1.length : ℚ)
  let dZ4 ← subMat (← s.a[4]?) (one_hot_encode y 9)
  let a3_t ← transpose (← s.a[3]?)
  pure (inv_m, dZ4, scale_matrix (← multiply_matrix dZ4 a3_t) inv_m,
        sum_rows dZ4 inv_m)

/-- One hidden-layer step of `backward_propagation` (him_network.rs:154-164
and the analogous blocks below it): `dA = W_next^T · dZ_next`,
`dZ = dA ⊙ relu_deriv(Z_cur)`, `dW = (1/m) dZ · A_prev^T`,
`db = (1/m) sum_rows(dZ)`.  Returns `(dZ, dW, db)`. -/
def backLayer (inv_m : ℚ) (wNext dZnext zCur aPrev : Mat) :
    Option (Mat × Mat × List ℚ) := do
  let w_t ← transpose wNext
  let dA ← multiply_matrix w_t dZnext
  let dZ ← elementwise_multiply dA (relu_deriv zCur)
  let a_t ← transpose aPrev
  let dW := scale_matrix (← multiply_matrix dZ a_t) inv_m
  pure (dZ, dW, sum_rows dZ inv_m)

/-- `backLayer` with its inputs fetched from the network state: layer `l`
uses `w[l+1]`, the previous `dZ`, `z[l]`, and `a[l-1]` (the batch `x1` for
layer 1). -/
def backLayerS (inv_m : ℚ) (s : HimNetwork) (l : ℕ) (dZnext : Mat) :
    Option (Mat × Mat × List ℚ) := do
  let wNext ← s.w[l + 1]?
  let zCur ← s.z[l]?
  let aPrev ← if l = 1 then pure s.x1 else s.a[l - 1]?
  backLayer inv_m wNext dZnext zCur aPrev

/-- `HimNetwork::backward_propagation` (him_network.rs:134-193): output
layer, then hidden layers 3, 2, 1; stores four `dW` and four `db`
tensors. -/
def backward_propagation (y : List ℕ) (s : HimNetwork) : Option HimNetwork := do
  let q ← backOut y s
  let p3 ← backLayerS q.1 s 3 q.2.1
  let p2 ← backLayerS q.1 s 2 p3.1
  let p1 ← backLayerS q.1 s 1 p2.1
  pure { s with dW := [p1.2.1, p2.2.1, p3.2.1, q.2.2.1],
                db := [p1.2.2, p2.2.2, p3.2.2, q.2.2.2] }

/-- The inner loops of `update_params` over one weight matrix: row `i` of
`w[l]` reads `dW[l][i][j]` for each of its columns; an empty row touches
the gradient not at all. -/
def updWRows (alpha : ℚ) (dWl? : Option Mat) : ℕ → List (List ℚ) → Option (List (List ℚ))
  | _, [] => some []
  | i, [] :: rest =>
    match updWRows alpha dWl? (i + 1) rest with
    | none => none
    | some rs => some ([] :: rs)
  | i, row :: rest => do
    let dWl ← dWl?
    let g ← dWl[i]?
    let row' ← zipOpt (fun x gv => some (x - alpha * gv)) row g
    match updWRows alpha dWl? (i + 1) rest with
    | none => none
    | some rs => pure (row' :: rs)

/-- The bias loop of `update_params` for one layer: reads `db[l][i]` for
each `i < b[l].len()` (and does not touch `db[l]` when `b[l]` is empty). -/
def updB (alpha : ℚ) (bl : List ℚ) (dbl? : Option (List ℚ)) : Option (List ℚ) :=
  match bl with
  | [] => some []
  | _ => do
    let dbl ← dbl?
    zipOpt (fun x gv => some (x - alpha * gv)) bl dbl

/-- The `for l in 0..self.w.len()` loop of `update_params`: the bias
vector `b[l]` is indexed for every such `l` (its loop bound), so it must
exist, while the gradients are only read where elements are updated. -/
def updLayers (alpha : ℚ) (dW : List Mat) (db : List (List ℚ)) :
    ℕ → List Mat → List (List ℚ) → Option (List Mat × List (List ℚ))
  | _, [], b => some ([], b)
  | l, wl :: ws, b => do
    let wl' ← updWRows alpha dW[l]? 0 wl
    let bl ← b[l]?
    let bl' ← updB alpha bl db[l]?
    let p ← updLayers alpha dW db (l + 1) ws (b.set l bl')
    pure (wl' :: p.1, p.2)

/-- `HimNetwork::update_params` (him_network.rs:198-209). -/
def update_params (alpha : ℚ) (s : HimNetwork) : Option HimNetwork :=
  (updLayers alpha s.dW s.db 0 s.w s.b).map fun p => { s with w := p.1, b := p.2 }

/-- One iteration of the `init_params` loop body (him_network.rs:69-79):
note each weight row is `vec![draw; n]`, one rng draw cloned across the
whole row.  `r` is the stream of `rng.gen_range(0.0..1.0)` outputs in
call order; `base` is the number of draws consumed so far. -/
def setRowAt (w : List Mat) (l i : ℕ) (row : List ℚ) : Option (List Mat) := do
  let m ← w[l]?
  if i < m.length then some (w.set l (m.set i row)) else none

/-- `self.b[l][i] = v` with its two panicking indexings. -/
def setEntryAt (b : List (List ℚ)) (l i : ℕ) (v : ℚ) : Option (List (List ℚ)) := do
  let bl ← b[l]?
  if i < bl.length then some (b.set l (bl.set i v)) else none

def initStep (r : ℕ → ℚ) (base nodes : ℕ) (s : HimNetwork) : Option HimNetwork := do
  let w ← setRowAt s.w 1 nodes (List.replicate 9 (r base - 1/2))
  let w ← setRowAt w 2 nodes (List.replicate 81 (r (base + 1) - 1/2))
  let w ← setRowAt w 3 nodes (List.replicate 81 (r (base + 2) - 1/2))
  let w ← setRowAt w 4 nodes (List.replicate 9 (r (base + 3) - 1/2))
  let b ← setEntryAt s.b 1 nodes (r (base + 4) - 1/2)
  let b ← setEntryAt b 2 nodes (r (base + 5) - 1/2)
  let b ← setEntryAt b 3 nodes (r (base + 6) - 1/2)
  let b ← setEntryAt b 4 nodes (r (base + 7) - 1/2)
  pure { s with w := w, b := b }

/-- `HimNetwork::init_params` (him_network.rs:67-80): `for nodes in 0..81`
with eight rng draws per iteration. -/
def init_params (r : ℕ → ℚ) (s : HimNetwork) : Option HimNetwork :=
  (List.range 81).foldlM (fun st nodes => initStep r (8 * nodes) nodes st) s

/-- The scan of `HimNetwork::predict` over one row (him_network.rs:335-344):
champion value/index start at `(row[0], 0)`, strict `>` keeps the first
occurrence of the maximum. -/
def predictGo : List ℚ → ℕ → ℚ → ℕ → ℕ
  | [], _, _, mi => mi
  | v :: vs, j, mv, mi =>
    if v > mv then predictGo vs (j + 1) v j else predictGo vs (j + 1) mv mi

/-- One row of `predict`: `row[0]` panics on an empty row. -/
def predictRow : List ℚ → Option ℕ
  | [] => none
  | v :: vs => some (predictGo (v :: vs) 0 v 0)

/-- `HimNetwork::predict` (him_network.rs:333-347). -/
def predict (output : Mat) : Option (List ℕ) :=
  mapOpt predictRow output

/-- Modelled from the spec's words (for the refinement comparison in the
forward-propagation claim): `Z[l] = W[l] · A[l-1] + b[l]` read with
examples as rows, i.e. `Z[i][j] = Σ_k W[j][k] * A[i][k] + b[j]`. -/
def dotSpec (wj xi : List ℚ) : ℚ :=
  ((wj.zip xi).map (fun p => p.1 * p.2)).sum

def specZ (w : Mat) (x : Mat) (b : List ℚ) : Mat :=
  x.map (fun xi => (w.zip b).map (fun wb => dotSpec wb.1 xi + wb.2))

/-- Modelled from the spec's words: per-example numerically-stabilized
softmax — subtract the per-row maximum, exponentiate, divide by the row
sum. -/
def rowMaxSpec (row : List ℚ) : ℚ := row.foldl max (row.headD 0)

def softmaxSpecRow (exp : ℚ → ℚ) (row : List ℚ) : List ℚ :=
  let m := rowMaxSpec row
  let exps := row.map (fun v => exp (v - m))
  exps.map (fun e => e / exps.sum)

def softmaxSpec (exp : ℚ → ℚ) (z : Mat) : Mat :=
  z.map (softmaxSpecRow exp)

/-- A stand-in for `f32::exp` in concrete witnesses. -/
def expOne : ℚ → ℚ := fun _ => 1

/-- A layer-compatible concrete state (one example, one node per layer)
used to run the modelled methods to completion on concrete data. -/
def himTiny : HimNetwork where
  w := [[[1]], [[1]], [[1]], [[1]], [[1]]]
  x1 := [[1]]
  b := [[0], [0], [0], [0], [0]]
  z := [[[1]], [[1]], [[1]], [[1]], [[1]]]
  a := [[[1]], [[1]], [[1]], [[1]], [[1]]]
  dW := [[[0]], [[0]], [[0]], [[0]], [[0]]]
  db := [[0], [0], [0], [0], [0]]

/-- The state `himTiny` reaches after `backward_propagation([0])`. -/
def himTinyBack : HimNetwork :=
  { himTiny with dW := [[[0]], [[0]], [[0]], [[0]]], db := [[0], [0], [0], [0]] }

/-! ### Inversion and evaluation lemmas for the Option-monadic loops -/

theorem mapOpt_cons {f : α → Option β} {a : α} {as : List α} {r : List β}
    (h : mapOpt f (a :: as) = some r) :
    ∃ b bs, f a = some b ∧ mapOpt f as = some bs ∧ r = b :: bs := by
  unfold mapOpt at h
  cases hfa : f a with
  | none => rw [hfa] at h; simp at h
  | some b =>
    rw [hfa] at h
    cases hrest : mapOpt f as with
    | none => rw [hrest] at h; simp at h
    | some bs =>
      rw [hrest] at h
      simp only [Option.some.injEq] at h
      exact ⟨b, bs, rfl, rfl, h.symm⟩

theorem mapOpt_length {f : α → Option β} : ∀ {l : List α} {r : List β},
    mapOpt f l = some r → r.length = l.length := by
  intro l
  induction l with
  | nil => intro r h; simp [mapOpt] at h; simp [← h]
  | cons a as ih =>
    intro r h
    obtain ⟨b, bs, _, hrest, rfl⟩ := mapOpt_cons h
    simp [ih hrest]

theorem mapOpt_mem {f : α → Option β} : ∀ {l : List α} {r : List β},
    mapOpt f l = some r → ∀ b ∈ r, ∃ a ∈ l, f a = some b := by
  intro l
  induction l with
  | nil => intro r h; simp [mapOpt] at h; simp [h]
  | cons a as ih =>
    intro r h b hb
    obtain ⟨b', bs, hfa, hrest, rfl⟩ := mapOpt_cons h
    rcases List.mem_cons.mp hb with rfl | hb'
    · exact ⟨a, List.mem_cons_self a as, hfa⟩
    · obtain ⟨a', ha', hfa'⟩ := ih hrest b hb'
      exact ⟨a', List.mem_cons_of_mem a ha', hfa'⟩

theorem mapOpt_forall_some {f : α → Option β} : ∀ {l : List α} {r : List β},
    mapOpt f l = some r → ∀ a ∈ l, ∃ b, f a = some b := by
  intro l
  induction l with
  | nil => intro r _ a ha; simp at ha
  | cons x xs ih =>
    intro r h a ha
    obtain ⟨b, bs, hfa, hrest, rfl⟩ := mapOpt_cons h
    rcases List.mem_cons.mp ha with rfl | ha'
    · exact ⟨b, hfa⟩
    · exact ih hrest a ha'

theorem mapOpt_eq_some_map {f : α → Option β} {g : α → β} : ∀ {l : List α},
    (∀ a ∈ l, f a = some (g a)) → mapOpt f l = some (l.map g) := by
  intro l
  induction l with
  | nil => intro _; rfl
  | cons a as ih =>
    intro h
    have ha := h a (List.mem_cons_self a as)
    have has := ih (fun x hx => h x (List.mem_cons_of_mem a hx))
    simp [mapOpt, ha, has]

theorem zipOpt_cons {f : α → β → Option γ} {a : α} {as : List α} {b : β}
    {bs : List β} {r : List γ} (h : zipOpt f (a :: as) (b :: bs) = some r) :
    ∃ c cs, f a b = some c ∧ zipOpt f as bs = some cs ∧ r = c :: cs := by
  unfold zipOpt at h
  cases hfa : f a b with
  | none => rw [hfa] at h; simp at h
  | some c =>
    rw [hfa] at h
    cases hrest : zipOpt f as bs with
    | none => rw [hrest] at h; simp at h
    | some cs =>
      rw [hrest] at h
      simp only [Option.some.injEq] at h
      exact ⟨c, cs, rfl, rfl, h.symm⟩

theorem dotProd_some_le : ∀ {u v : List ℚ} {q : ℚ},
    dotProd u v = some q → u.length ≤ v.length := by
  intro u
  induction u with
  | nil => intro v q _; simp
  | cons a as ih =>
    intro v q h
    cases v with
    | nil => simp [dotProd] at h
    | cons b bs =>
      unfold dotProd at h
      cases hd : dotProd as bs with
      | none => rw [hd] at h; simp at h
      | some s => simpa using Nat.succ_le_succ (ih hd)

theorem dotProd_none_of_lt : ∀ {u v : List ℚ},
    v.length < u.length → dotProd u v = none := by
  intro u
  induction u with
  | nil => intro v h; simp at h
  | cons a as ih =>
    intro v h
    cases v with
    | nil => rfl
    | cons b bs =>
      have : bs.length < as.length := by simpa using h
      unfold dotProd
      rw [ih this]

theorem dotProd_eq_dotSpec : ∀ {u v : List ℚ} {q : ℚ},
    dotProd u v = some q → q = dotSpec u v := by
  intro u
  induction u with
  | nil =>
    intro v q h
    simp only [dotProd, Option.some.injEq] at h
    simp [dotSpec, ← h]
  | cons a as ih =>
    intro v q h
    cases v with
    | nil => simp [dotProd] at h
    | cons b bs =>
      unfold dotProd at h
      cases hd : dotProd as bs with
      | none => rw [hd] at h; simp at h
      | some s =>
        rw [hd] at h
        simp only [Option.some.injEq] at h
        simp [dotSpec, ← h, ih hd, List.zip_cons_cons]

theorem addRow_some : ∀ {r b r' : List ℚ}, addRow r b = some r' →
    r.length ≤ b.length ∧ r'.length = r.length := by
  intro r
  induction r with
  | nil =>
    intro b r' h
    simp only [addRow, Option.some.injEq] at h
    simp [← h]
  | cons m ms ih =>
    intro b r' h
    cases b with
    | nil => simp [addRow] at h
    | cons x xs =>
      unfold addRow at h
      cases hd : addRow ms xs with
      | none => rw [hd] at h; simp at h
      | some t =>
        rw [hd] at h
        simp only [Option.some.injEq] at h
        obtain ⟨h1, h2⟩ := ih hd
        constructor
        · simpa using h1
        · simp [← h, h2]

theorem addRow_none_of_lt : ∀ {r b : List ℚ},
    b.length < r.length → addRow r b = none := by
  intro r
  induction r with
  | nil => intro b h; simp at h
  | cons m ms ih =>
    intro b h
    cases b with
    | nil => rfl
    | cons x xs =>
      have : xs.length < ms.length := by simpa using h
      unfold addRow
      rw [ih this]

theorem mulRow_bias_spec : ∀ {w : Mat} {b xi mrow zrow : List ℚ},
    mapOpt (fun wj => dotProd wj xi) w = some mrow → addRow mrow b = some zrow →
    zrow = (w.zip b).map (fun wb => dotSpec wb.1 xi + wb.2) := by
  intro w
  induction w with
  | nil =>
    intro b xi mrow zrow hm ha
    simp only [mapOpt, Option.some.injEq] at hm
    subst hm
    simp only [addRow, Option.some.injEq] at ha
    simp [← ha]
  | cons wj ws ih =>
    intro b xi mrow zrow hm ha
    obtain ⟨d, ds, hd, hds, rfl⟩ := mapOpt_cons hm
    cases b with
    | nil => simp [addRow] at ha
    | cons bj bs =>
      unfold addRow at ha
      cases hrest : addRow ds bs with
      | none => rw [hrest] at ha; simp at ha
      | some t =>
        rw [hrest] at ha
        simp only [Option.some.injEq] at ha
        simp [← ha, List.zip_cons_cons, ← dotProd_eq_dotSpec hd, ih hds hrest]

theorem mul_bias_spec : ∀ {x M Z : Mat} {w : Mat} {b : List ℚ},
    multiply_matrix w x = some M → add_bias M b = some Z → Z = specZ w x b := by
  intro x
  induction x with
  | nil =>
    intro M Z w b hm ha
    simp only [multiply_matrix, mapOpt, Option.some.injEq] at hm
    subst hm
    simp only [add_bias, mapOpt, Option.some.injEq] at ha
    simp [← ha, specZ]
  | cons xi xs ih =>
    intro M Z w b hm ha
    obtain ⟨mrow, Ms, hrow, hrest, rfl⟩ := mapOpt_cons hm
    obtain ⟨zrow, Zs, hzr, hzrest, rfl⟩ := mapOpt_cons ha
    have h1 := mulRow_bias_spec hrow hzr
    have h2 := ih hrest hzrest
    simp [specZ] at h2 ⊢
    exact ⟨h1, h2⟩

theorem multiply_shape {w x M : Mat} (h : multiply_matrix w x = some M) :
    M.length = x.length ∧ ∀ r ∈ M, r.length = w.length := by
  refine ⟨mapOpt_length h, fun r hr => ?_⟩
  obtain ⟨xi, _, hxi⟩ := mapOpt_mem h r hr
  exact mapOpt_length hxi

theorem add_bias_shape {M Z : Mat} {b : List ℚ} (h : add_bias M b = some Z) :
    Z.length = M.length ∧
    ∀ r' ∈ Z, ∃ r ∈ M, r'.length = r.length ∧ r.length ≤ b.length := by
  refine ⟨mapOpt_length h, fun r' hr' => ?_⟩
  obtain ⟨r, hr, hrow⟩ := mapOpt_mem h r' hr'
  obtain ⟨h1, h2⟩ := addRow_some hrow
  exact ⟨r, hr, h2, h1⟩

theorem layerZ_inv {ow : Option Mat} {x Z : Mat} {ob : Option (List ℚ)}
    (h : layerZ ow x ob = some Z) :
    ∃ w b M, ow = some w ∧ ob = some b ∧
      multiply_matrix w x = some M ∧ add_bias M b = some Z := by
  cases ow with
  | none => simp [layerZ] at h
  | some w =>
    cases hm : multiply_matrix w x with
    | none => simp [layerZ, hm] at h
    | some M =>
      cases ob with
      | none => simp [layerZ, hm] at h
      | some b =>
        refine ⟨w, b, M, rfl, rfl, hm, ?_⟩
        simpa [layerZ, hm] using h

theorem layerZ_spec {w x Z : Mat} {b : List ℚ}
    (h : layerZ (some w) x (some b) = some Z) :
    Z = specZ w x b ∧ Z.length = x.length ∧ ∀ r ∈ Z, r.length = w.length := by
  obtain ⟨w', b', M, hw, hb, hm, ha⟩ := layerZ_inv h
  obtain ⟨rfl⟩ : w' = w := by simpa using hw.symm
  obtain ⟨rfl⟩ : b' = b := by simpa using hb.symm
  obtain ⟨hml, hmr⟩ := multiply_shape hm
  obtain ⟨hal, har⟩ := add_bias_shape ha
  refine ⟨mul_bias_spec hm ha, by rw [hal, hml], fun r' hr' => ?_⟩
  obtain ⟨r, hr, he, _⟩ := har r' hr'
  rw [he, hmr r hr]

theorem softmaxRow_eq_spec {exp : ℚ → ℚ} : ∀ {row : List ℚ},
    (∀ v ∈ row, f32MIN ≤ v) → softmaxRow exp row = softmaxSpecRow exp row := by
  intro row hmin
  cases row with
  | nil => rfl
  | cons v vs =>
    have hv : max f32MIN v = v :=
      max_eq_right (hmin v (List.mem_cons_self v vs))
    have hmax : (v :: vs).foldl max f32MIN = (v :: vs).foldl max v := by
      simp [List.foldl_cons, hv]
    have hspec : rowMaxSpec (v :: vs) = (v :: vs).foldl max v := by
      simp [rowMaxSpec, List.foldl_cons, max_self]
    simp only [softmaxRow, softmaxSpecRow, hmax, hspec]

theorem softmax_eq_spec {exp : ℚ → ℚ} {z out : Mat} {c : ℕ}
    (h : softmax exp z = some out) (hc : ∀ r ∈ z, r.length = c)
    (hmin : ∀ r ∈ z, ∀ v ∈ r, f32MIN ≤ v) : out = softmaxSpec exp z := by
  cases z with
  | nil => simp [softmax] at h
  | cons z0 zs =>
    have hz0 : z0.length = c := hc z0 (List.mem_cons_self z0 zs)
    have hmap : mapOpt (fun row =>
        if row.length ≤ z0.length then
          some (softmaxRow exp row ++ List.replicate (z0.length - row.length) 0)
        else none) (z0 :: zs) = some ((z0 :: zs).map (softmaxSpecRow exp)) := by
      apply mapOpt_eq_some_map
      intro r hr
      have hrc : r.length = c := hc r hr
      rw [if_pos (by rw [hrc, hz0]), hrc, hz0, Nat.sub_self]
      simp [softmaxRow_eq_spec (hmin r hr)]
    have h' : mapOpt (fun row =>
        if row.length ≤ z0.length then
          some (softmaxRow exp row ++ List.replicate (z0.length - row.length) 0)
        else none) (z0 :: zs) = some out := h
    rw [hmap] at h'
    simp only [Option.some.injEq] at h'
    rw [← h', softmaxSpec]

theorem softmaxRow_sum_one {exp : ℚ → ℚ} (hexp : ∀ q, 0 < exp q)
    {row : List ℚ} (hne : row ≠ []) : (softmaxRow exp row).sum = 1 := by
  have hpos : 0 < (row.map (fun v => exp (v - row.foldl max f32MIN))).sum := by
    apply List.sum_pos
    · intro x hx
      obtain ⟨v, _, rfl⟩ := List.mem_map.mp hx
      exact hexp _
    · simpa using hne
  have hsum : ∀ (l : List ℚ) (s : ℚ), (l.map (fun e => e / s)).sum = l.sum / s := by
    intro l s
    induction l with
    | nil => simp
    | cons a as ih => simp [ih, add_div]
  simp only [softmaxRow, hsum]
  exact div_self (ne_of_gt hpos)

theorem softmax_sum_one {exp : ℚ → ℚ} {z out : Mat}
    (h : softmax exp z = some out) (hexp : ∀ q, 0 < exp q)
    (hne : ∀ r ∈ z, r ≠ []) : ∀ r' ∈ out, r'.sum = 1 := by
  cases z with
  | nil => simp [softmax] at h
  | cons z0 zs =>
    intro r' hr'
    have h' : mapOpt (fun row =>
        if row.length ≤ z0.length then
          some (softmaxRow exp row ++ List.replicate (z0.length - row.length) 0)
        else none) (z0 :: zs) = some out := h
    obtain ⟨r, hr, hfr⟩ := mapOpt_mem h' r' hr'
    by_cases hlen : r.length ≤ z0.length
    · rw [if_pos hlen] at hfr
      simp only [Option.some.injEq] at hfr
      rw [← hfr, List.sum_append, List.sum_replicate, smul_zero, add_zero]
      exact softmaxRow_sum_one hexp (hne r hr)
    · rw [if_neg hlen] at hfr
      simp at hfr

theorem setIdx_some {l : List α} {i : ℕ} {v : α} {t : List α}
    (h : setIdx l i v = some t) : t = l.set i v ∧ i < l.length := by
  unfold setIdx at h
  by_cases hi : i < l.length
  · rw [if_pos hi] at h; simp only [Option.some.injEq] at h; exact ⟨h.symm, hi⟩
  · rw [if_neg hi] at h; simp at h

theorem setIdx4_getD {l : List Mat} {m1 m2 m3 m4 : Mat} {t : List Mat}
    (h : setIdx4 l m1 m2 m3 m4 = some t) :
    t.getD 1 [] = m1 ∧ t.getD 2 [] = m2 ∧ t.getD 3 [] = m3 ∧ t.getD 4 [] = m4 := by
  simp only [setIdx4, bind, Option.bind_eq_some] at h
  obtain ⟨t1, h1, t2, h2, t3, h3, h4⟩ := h
  obtain ⟨e1, hb1⟩ := setIdx_some h1
  obtain ⟨e2, hb2⟩ := setIdx_some h2
  obtain ⟨e3, hb3⟩ := setIdx_some h3
  obtain ⟨e4, hb4⟩ := setIdx_some h4
  subst e1 e2 e3 e4
  simp only [List.length_set] at hb1 hb2 hb3 hb4
  refine ⟨?_, ?_, ?_, ?_⟩ <;>
    simp [List.getD_eq_getElem?_getD, List.getElem?_set_ne, List.getElem?_set_self,
      List.length_set, hb1, hb2, hb3, hb4]

/-- Inversion of a successful forward pass: the four layer computations
and the stores they produce. -/
theorem forward_inv {exp : ℚ → ℚ} {s s' : HimNetwork}
    (hf : forward_propagation exp s = some s') :
    ∃ z1 z2 z3 z4 a4,
      layerZ s.w[1]? s.x1 s.b[1]? = some z1 ∧
      layerZ s.w[2]? (relu z1) s.b[2]? = some z2 ∧
      layerZ s.w[3]? (relu z2) s.b[3]? = some z3 ∧
      layerZ s.w[4]? (relu z3) s.b[4]? = some z4 ∧
      softmax exp z4 = some a4 ∧
      s'.z.getD 1 [] = z1 ∧ s'.z.getD 2 [] = z2 ∧
      s'.z.getD 3 [] = z3 ∧ s'.z.getD 4 [] = z4 ∧
      s'.a.getD 1 [] = relu z1 ∧ s'.a.getD 2 [] = relu z2 ∧
      s'.a.getD 3 [] = relu z3 ∧ s'.a.getD 4 [] = a4 ∧
      s'.w = s.w ∧ s'.b = s.b ∧ s'.x1 = s.x1 := by
  simp only [forward_propagation, bind, Option.bind_eq_some] at hf
  obtain ⟨z1, hz1, z2, hz2, z3, hz3, z4, hz4, a4, ha4, zn, hzn, an, han, hp⟩ := hf
  simp only [pure, Option.some.injEq] at hp
  obtain ⟨g1, g2, g3, g4⟩ := setIdx4_getD hzn
  obtain ⟨f1, f2, f3, f4⟩ := setIdx4_getD han
  refine ⟨z1, z2, z3, z4, a4, hz1, hz2, hz3, hz4, ha4, ?_⟩
  rw [← hp]
  exact ⟨g1, g2, g3, g4, f1, f2, f3, f4, rfl, rfl, rfl⟩

theorem relu_length (z : Mat) : (relu z).length = z.length :=
  List.length_map z _

/-- Claim C1 (amended): with the weights, biases and caches built by
`HimNetwork::new`, `forward_propagation` panics for every batch `x1` with
at least one example, so forward never completes on a non-empty batch.
(Contrary to the claim's stated mechanism, for batches in the stored
9-column shape the panic already happens at the first layer inside
`multiply_matrix`, because `new` gives `w[1]` rows of length 81; the
final-layer `add_bias` overflow of the 9-element `b[4]` is reached only
when every input row has length at least 81.) -/
theorem forward_never_completes (exp : ℚ → ℚ) (x : Mat) (hx : x ≠ []) :
    forward_propagation exp { himNew with x1 := x } = none := by
  by_contra hne
  obtain ⟨s', hs'⟩ := Option.ne_none_iff_exists'.mp hne
  obtain ⟨z1, z2, z3, z4, a4, hz1, hz2, hz3, hz4, ha4, _⟩ := forward_inv hs'
  obtain ⟨w1, b1, M1, hw1, hb1, hm1, hba1⟩ := layerZ_inv hz1
  obtain ⟨w2, b2, M2, hw2, hb2, hm2, hba2⟩ := layerZ_inv hz2
  obtain ⟨w3, b3, M3, hw3, hb3, hm3, hba3⟩ := layerZ_inv hz3
  obtain ⟨w4, b4, M4, hw4, hb4, hm4, hba4⟩ := layerZ_inv hz4
  have ew4 : w4 = List.replicate 81 (List.replicate 9 (0:ℚ)) := by
    have : ({ himNew with x1 := x } : HimNetwork).w[4]? =
        some (List.replicate 81 (List.replicate 9 (0:ℚ))) := rfl
    rw [this] at hw4
    simpa using hw4.symm
  have eb4 : b4 = List.replicate 9 (0:ℚ) := by
    have : ({ himNew with x1 := x } : HimNetwork).b[4]? =
        some (List.replicate 9 (0:ℚ)) := rfl
    rw [this] at hb4
    simpa using hb4.symm
  have hlen1 : z1.length = x.length := by
    rw [(add_bias_shape hba1).1, (multiply_shape hm1).1]
  have hlen2 : z2.length = z1.length := by
    rw [(add_bias_shape hba2).1, (multiply_shape hm2).1, relu_length]
  have hlen3 : z3.length = z2.length := by
    rw [(add_bias_shape hba3).1, (multiply_shape hm3).1, relu_length]
  have hM4len : M4.length = z3.length := by
    rw [(multiply_shape hm4).1, relu_length]
  have hM4ne : M4 ≠ [] := by
    intro hnil
    apply hx
    have : M4.length = x.length := by rw [hM4len, hlen3, hlen2, hlen1]
    rw [hnil] at this
    exact List.eq_nil_of_length_eq_zero this.symm
  obtain ⟨m0, Ms, rfl⟩ := List.exists_cons_of_ne_nil hM4ne
  have hm0len : m0.length = 81 := by
    rw [(multiply_shape hm4).2 m0 (List.mem_cons_self m0 Ms), ew4]
    simp
  have hba4' : mapOpt (fun r => addRow r b4) (m0 :: Ms) = some z4 := hba4
  obtain ⟨r', hr'⟩ := mapOpt_forall_some hba4' m0 (List.mem_cons_self m0 Ms)
  have hle := (addRow_some hr').1
  rw [hm0len, eb4] at hle
  simp at hle

/-- Claim C1 counterexample to the stated panic location: on the stored
batch of `HimNetwork::new` (10000 examples of 9 features), already the
first layer's `multiply_matrix` call panics — `w[1]` rows have length 81
and the loop reads `x1[i][9..80]` — so execution never reaches the final
layer's `add_bias`. -/
theorem forward_layer1_already_panics :
    multiply_matrix (himNew.w.getD 1 []) himNew.x1 = none := by
  with_unfolding_all rfl

theorem forward_never_completes_witness :
    himNew.x1 ≠ [] ∧ forward_propagation expOne himNew = none := by
  have hx : himNew.x1 ≠ [] := by decide
  exact ⟨hx, forward_never_completes expOne himNew.x1 hx⟩

/-- Claim C2: whenever `forward_propagation` completes, it has computed,
for every layer `l`, `Z[l] = W[l] · A[l-1] + b[l]` (with `A[0]` the input
batch `x1`, under the code's rows-as-examples multiply convention),
elementwise ReLU as the activation of layers 1-3, and per-example
numerically-stabilized softmax (subtract per-row max, exponentiate,
divide by row sum) at the last layer.  The hypothesis `hmin` states that
the last pre-activations are at least `f32::MIN`, which holds for every
finite `f32` value. -/
theorem forward_propagation_matches_spec {exp : ℚ → ℚ} {s s' : HimNetwork}
    (hf : forward_propagation exp s = some s')
    (hmin : ∀ r ∈ s'.z.getD 4 [], ∀ v ∈ r, f32MIN ≤ v) :
    s'.z.getD 1 [] = specZ (s.w.getD 1 []) s.x1 (s.b.getD 1 []) ∧
    s'.a.getD 1 [] = relu (s'.z.getD 1 []) ∧
    s'.z.getD 2 [] = specZ (s.w.getD 2 []) (s'.a.getD 1 []) (s.b.getD 2 []) ∧
    s'.a.getD 2 [] = relu (s'.z.getD 2 []) ∧
    s'.z.getD 3 [] = specZ (s.w.getD 3 []) (s'.a.getD 2 []) (s.b.getD 3 []) ∧
    s'.a.getD 3 [] = relu (s'.z.getD 3 []) ∧
    s'.z.getD 4 [] = specZ (s.w.getD 4 []) (s'.a.getD 3 []) (s.b.getD 4 []) ∧
    s'.a.getD 4 [] = softmaxSpec exp (s'.z.getD 4 []) := by
  obtain ⟨z1, z2, z3, z4, a4, hz1, hz2, hz3, hz4, ha4,
    e1, e2, e3, e4, f1, f2, f3, f4, _, _, _⟩ := forward_inv hf
  obtain ⟨w1, b1, M1, hw1, hb1, hm1, hba1⟩ := layerZ_inv hz1
  obtain ⟨w2, b2, M2, hw2, hb2, hm2, hba2⟩ := layerZ_inv hz2
  obtain ⟨w3, b3, M3, hw3, hb3, hm3, hba3⟩ := layerZ_inv hz3
  obtain ⟨w4, b4, M4, hw4, hb4, hm4, hba4⟩ := layerZ_inv hz4
  have hg1 : s.w.getD 1 [] = w1 := by simp [List.getD_eq_getElem?_getD, hw1]
  have hg2 : s.w.getD 2 [] = w2 := by simp [List.getD_eq_getElem?_getD, hw2]
  have hg3 : s.w.getD 3 [] = w3 := by simp [List.getD_eq_getElem?_getD, hw3]
  have hg4 : s.w.getD 4 [] = w4 := by simp [List.getD_eq_getElem?_getD, hw4]
  have hgb1 : s.b.getD 1 [] = b1 := by simp [List.getD_eq_getElem?_getD, hb1]
  have hgb2 : s.b.getD 2 [] = b2 := by simp [List.getD_eq_getElem?_getD, hb2]
  have hgb3 : s.b.getD 3 [] = b3 := by simp [List.getD_eq_getElem?_getD, hb3]
  have hgb4 : s.b.getD 4 [] = b4 := by simp [List.getD_eq_getElem?_getD, hb4]
  have hrows4 : ∀ r ∈ z4, r.length = w4.length := by
    intro r hr
    obtain ⟨r0, hr0, he, _⟩ := (add_bias_shape hba4).2 r hr
    rw [he, (multiply_shape hm4).2 r0 hr0]
  have ha4spec : a4 = softmaxSpec exp z4 := by
    refine softmax_eq_spec ha4 hrows4 ?_
    rw [e4] at hmin
    exact hmin
  rw [e1, e2, e3, e4, f1, f2, f3, f4, hg1, hg2, hg3, hg4,
    hgb1, hgb2, hgb3, hgb4]
  exact ⟨mul_bias_spec hm1 hba1, rfl, mul_bias_spec hm2 hba2, rfl,
    mul_bias_spec hm3 hba3, rfl, mul_bias_spec hm4 hba4, ha4spec⟩

theorem forward_propagation_matches_spec_witness :
    forward_propagation expOne himTiny = some himTiny ∧
    (himTiny.z.getD 1 [] =
        specZ (himTiny.w.getD 1 []) himTiny.x1 (himTiny.b.getD 1 []) ∧
      himTiny.a.getD 1 [] = relu (himTiny.z.getD 1 []) ∧
      himTiny.z.getD 2 [] =
        specZ (himTiny.w.getD 2 []) (himTiny.a.getD 1 []) (himTiny.b.getD 2 []) ∧
      himTiny.a.getD 2 [] = relu (himTiny.z.getD 2 []) ∧
      himTiny.z.getD 3 [] =
        specZ (himTiny.w.getD 3 []) (himTiny.a.getD 2 []) (himTiny.b.getD 3 []) ∧
      himTiny.a.getD 3 [] = relu (himTiny.z.getD 3 []) ∧
      himTiny.z.getD 4 [] =
        specZ (himTiny.w.getD 4 []) (himTiny.a.getD 3 []) (himTiny.b.getD 4 []) ∧
      himTiny.a.getD 4 [] = softmaxSpec expOne (himTiny.z.getD 4 [])) := by
  have hfw : forward_propagation expOne himTiny = some himTiny := by
    with_unfolding_all rfl
  refine ⟨hfw, forward_propagation_matches_spec hfw ?_⟩
  have hz4 : himTiny.z.getD 4 [] = [[1]] := by with_unfolding_all rfl
  rw [hz4]
  intro r hr v hv
  simp only [List.mem_singleton] at hr
  subst hr
  simp only [List.mem_singleton] at hv
  subst hv
  norm_num [f32MIN]

/-- Claim C6: whenever `forward_propagation` completes on a batch with at
least the final weight matrix non-empty (so the output rows are
non-empty), every row of the returned class-probability matrix `A[4]`
sums to 1 within 1e-5 absolute tolerance (in this exact-arithmetic model
the sum is exactly 1; positivity of `exp` is what `f32::exp` provides). -/
theorem forward_rows_sum_one {exp : ℚ → ℚ} (hexp : ∀ q, 0 < exp q)
    {s s' : HimNetwork} (hf : forward_propagation exp s = some s')
    (hw4 : s.w.getD 4 [] ≠ []) :
    ∀ r ∈ s'.a.getD 4 [], |r.sum - 1| ≤ 1 / 100000 := by
  obtain ⟨z1, z2, z3, z4, a4, hz1, hz2, hz3, hz4, ha4,
    e1, e2, e3, e4, f1, f2, f3, f4, _, _, _⟩ := forward_inv hf
  obtain ⟨w4, b4, M4, hw4', hb4', hm4, hba4⟩ := layerZ_inv hz4
  have hg4 : s.w.getD 4 [] = w4 := by simp [List.getD_eq_getElem?_getD, hw4']
  have hrows4 : ∀ r ∈ z4, r ≠ [] := by
    intro r hr
    obtain ⟨r0, hr0, he, _⟩ := (add_bias_shape hba4).2 r hr
    have : r.length = w4.length := by rw [he, (multiply_shape hm4).2 r0 hr0]
    intro hnil
    apply hw4
    rw [hg4]
    apply List.eq_nil_of_length_eq_zero
    rw [← this, hnil]
    rfl
  have hsum := softmax_sum_one ha4 hexp hrows4
  rw [f4]
  intro r hr
  rw [hsum r hr]
  norm_num

theorem forward_rows_sum_one_witness :
    (∀ q : ℚ, 0 < expOne q) ∧
    ∀ r ∈ himTiny.a.getD 4 [], |r.sum - 1| ≤ 1 / 100000 := by
  have hexp : ∀ q : ℚ, 0 < expOne q := by intro q; norm_num [expOne]
  have hfw : forward_propagation expOne himTiny = some himTiny := by
    with_unfolding_all rfl
  have hw4 : himTiny.w.getD 4 [] ≠ [] := by decide
  exact ⟨hexp, forward_rows_sum_one hexp hfw hw4⟩

/-- Claim C3 counterexample: in the network built by `HimNetwork::new`,
layer 3's out_dim (number of `w[3]` rows, 81) differs from layer 4's
in_dim (`w[4]` row length, 9), and the last layer's out_dim is 81, not
the class count 9 — so the adjacent-layer dimension-chain invariant fails
no matter whether layers are counted from `w[0]` or from `w[1]`. -/
theorem dims_chain_broken :
    (himNew.w.getD 3 []).length ≠ ((himNew.w.getD 4 []).getD 0 []).length ∧
    (himNew.w.getD 4 []).length ≠ 9 := by
  constructor <;> decide

/-- Claim C3 (amended): in `HimNetwork::new`, counting the five stored
weight matrices `w[0..4]`, the chain `out_dim(w[i]) = in_dim(w[i+1])`
holds for the pairs (0,1), (1,2), (2,3) and the first layer's in_dim is
the feature count 9, but it breaks at the pair (3,4) — `w[3]` has 81 rows
while `w[4]` rows have length 9 — and the last layer's out_dim is 81
rather than the class count 9. -/
theorem dims_chain_partly_holds :
    ((himNew.w.getD 0 []).getD 0 []).length = 9 ∧
    (himNew.w.getD 0 []).length = ((himNew.w.getD 1 []).getD 0 []).length ∧
    (himNew.w.getD 1 []).length = ((himNew.w.getD 2 []).getD 0 []).length ∧
    (himNew.w.getD 2 []).length = ((himNew.w.getD 3 []).getD 0 []).length ∧
    (himNew.w.getD 3 []).length = 81 ∧
    ((himNew.w.getD 4 []).getD 0 []).length = 9 ∧
    (himNew.w.getD 4 []).length = 81 := by
  refine ⟨?_, ?_, ?_, ?_, ?_, ?_, ?_⟩ <;> decide

/-- Claim C4: the active `one_hot_encode` does NOT fail on an
out-of-range label — it silently skips it, leaving an all-zero row
(him_network.rs:119-121 guards with `if *label < classes` and raises no
error), while in-range labels are encoded correctly.  Label 5 with class
count 9 gives the expected one-hot row; label 9 with class count 9
yields an all-zero row instead of a `LabelOutOfRange` failure. -/
theorem one_hot_encode_silently_skips :
    one_hot_encode [5] 9 = [[0, 0, 0, 0, 0, 1, 0, 0, 0]] ∧
    one_hot_encode [9] 9 = [[0, 0, 0, 0, 0, 0, 0, 0, 0]] := by
  constructor <;> with_unfolding_all rfl

/-- Claim C5 (amended): whenever `backward_propagation` completes it
stores exactly FOUR `dW` tensors and four `db` tensors (for `w[1..4]` and
`b[1..4]`, shifted down one index), while the network keeps five weight
matrices and five bias vectors — so the gradient set does not contain one
tensor per stored parameter layer, and the parameters themselves are left
untouched. -/
theorem backward_stores_four_gradients (y : List ℕ) (s s' : HimNetwork)
    (h : backward_propagation y s = some s') :
    s'.dW.length = 4 ∧ s'.db.length = 4 ∧ s'.w = s.w ∧ s'.b = s.b := by
  simp only [backward_propagation, bind, Option.bind_eq_some] at h
  obtain ⟨q, hq, p3, hp3, p2, hp2, p1, hp1, hp⟩ := h
  simp only [pure, Option.some.injEq] at hp
  rw [← hp]
  exact ⟨rfl, rfl, rfl, rfl⟩

/-- Claim C5 counterexample: a complete run of `backward_propagation` on
a small layer-compatible state stores 4 `dW`/`db` tensors against 5
stored weight/bias layers, refuting "exactly one gradient tensor per
weight layer and one per bias layer". -/
theorem backward_gradient_count_mismatch :
    (backward_propagation [0] himTiny).map
        (fun t => (t.dW.length, t.db.length, t.w.length, t.b.length)) =
      some (4, 4, 5, 5) := by
  with_unfolding_all rfl

theorem backward_stores_four_gradients_witness :
    backward_propagation [0] himTiny = some himTinyBack ∧
    (himTinyBack.dW.length = 4 ∧ himTinyBack.db.length = 4 ∧
      himTinyBack.w = himTiny.w ∧ himTinyBack.b = himTiny.b) := by
  have hb : backward_propagation [0] himTiny = some himTinyBack := by
    with_unfolding_all rfl
  exact ⟨hb, backward_stores_four_gradients [0] himTiny himTinyBack hb⟩

/-- Claim C7: `init_params` does not draw each element independently —
each weight row of a layer is `vec![draw; n]`, a single rng draw cloned
across the whole row (him_network.rs:70-73, visible in `initStep` as
`List.replicate 9 (r base - 1/2)`), and moreover the loop writes
`b[4][nodes]` for `nodes` up to 80 although `b[4]` has 9 entries, so
`init_params` panics on the freshly-constructed network at `nodes = 9`
and never completes.  The second conjunct shows the first written row of
`w[1]`: all nine entries share the single draw `r 0`. -/
theorem init_params_shares_draws_and_panics :
    init_params (fun _ => 0) himNew = none ∧
    (initStep (fun n => (n : ℚ)) 0 0 himNew).map
        (fun t => (t.w.getD 1 []).getD 0 []) =
      some (List.replicate 9 ((0 : ℚ) - 1 / 2)) := by
  constructor <;> with_unfolding_all rfl

theorem zipOpt_sub_zero : ∀ {l g r : List ℚ},
    zipOpt (fun x gv => some (x - 0 * gv)) l g = some r → r = l := by
  intro l
  induction l with
  | nil =>
    intro g r h
    simp only [zipOpt, Option.some.injEq] at h
    exact h.symm
  | cons a as ih =>
    intro g r h
    cases g with
    | nil => simp [zipOpt] at h
    | cons b bs =>
      obtain ⟨c, cs, hc, hcs, rfl⟩ := zipOpt_cons h
      simp only [Option.some.injEq] at hc
      rw [ih hcs, ← hc]
      simp

theorem updWRows_zero : ∀ {wl : List (List ℚ)} {i : ℕ} {d : Option Mat}
    {r : List (List ℚ)}, updWRows 0 d i wl = some r → r = wl := by
  intro wl
  induction wl with
  | nil =>
    intro i d r h
    simp only [updWRows, Option.some.injEq] at h
    exact h.symm
  | cons row rest ih =>
    intro i d r h
    cases row with
    | nil =>
      unfold updWRows at h
      cases hrec : updWRows 0 d (i + 1) rest with
      | none => rw [hrec] at h; simp at h
      | some rs =>
        rw [hrec] at h
        simp only [Option.some.injEq] at h
        rw [← h, ih hrec]
    | cons v vs =>
      simp only [updWRows, bind, Option.bind_eq_some] at h
      obtain ⟨dWl, hdWl, g, hg, row', hrow', h⟩ := h
      cases hrec : updWRows 0 d (i + 1) rest with
      | none => rw [hrec] at h; simp at h
      | some rs =>
        rw [hrec] at h
        simp only [pure, Option.some.injEq] at h
        rw [← h, ih hrec, zipOpt_sub_zero hrow']

theorem updB_zero {bl : List ℚ} {d : Option (List ℚ)} {r : List ℚ}
    (h : updB 0 bl d = some r) : r = bl := by
  cases bl with
  | nil =>
    simp only [updB, Option.some.injEq] at h
    exact h.symm
  | cons x xs =>
    simp only [updB, bind, Option.bind_eq_some] at h
    obtain ⟨dbl, _, hz⟩ := h
    exact zipOpt_sub_zero hz

theorem set_self_of_getElem? {l : List α} {i : ℕ} {v : α}
    (h : l[i]? = some v) : l.set i v = l := by
  apply List.ext_getElem?
  intro n
  by_cases hn : i = n
  · subst hn
    obtain ⟨hi, hv⟩ := List.getElem?_eq_some.mp h
    rw [List.getElem?_set_self hi, h]
  · rw [List.getElem?_set_ne hn]

theorem updLayers_zero : ∀ {ws : List Mat} {l : ℕ} {b : List (List ℚ)}
    {dW : List Mat} {db : List (List ℚ)} {p : List Mat × List (List ℚ)},
    updLayers 0 dW db l ws b = some p → p.1 = ws ∧ p.2 = b := by
  intro ws
  induction ws with
  | nil =>
    intro l b dW db p h
    simp only [updLayers, Option.some.injEq] at h
    rw [← h]
    exact ⟨rfl, rfl⟩
  | cons wl ws ih =>
    intro l b dW db p h
    simp only [updLayers, bind, Option.bind_eq_some] at h
    obtain ⟨wl', hwl', bl, hbl, bl', hbl', p', hp', h⟩ := h
    have e1 : wl' = wl := updWRows_zero hwl'
    have e2 : bl' = bl := updB_zero hbl'
    have e3 : b.set l bl' = b := by rw [e2]; exact set_self_of_getElem? hbl
    rw [e3] at hp'
    obtain ⟨h1, h2⟩ := ih hp'
    simp only [pure, Option.some.injEq] at h
    rw [← h]
    exact ⟨by rw [e1, h1], h2⟩

/-- Claim C8: running `update_params` with `alpha = 0` leaves the whole
network state — in particular every weight and every bias — exactly as it
was, whatever gradient tensors are stored in `dW`/`db` (whenever the
update's gradient indexing itself does not panic). -/
theorem update_params_zero_id (s s' : HimNetwork)
    (h : update_params 0 s = some s') : s' = s := by
  unfold update_params at h
  rw [Option.map_eq_some'] at h
  obtain ⟨p, hp, h⟩ := h
  obtain ⟨h1, h2⟩ := updLayers_zero hp
  rw [← h, h1, h2]

theorem update_params_zero_id_witness :
    update_params 0 himTiny = some himTiny ∧ himTiny = himTiny := by
  have h : update_params 0 himTiny = some himTiny := by with_unfolding_all rfl
  exact ⟨h, update_params_zero_id himTiny himTiny h⟩

theorem predictGo_spec (row : List ℚ) : ∀ (vs : List ℚ) (j : ℕ) (mv : ℚ)
    (mi : ℕ), row.drop j = vs → mi ≤ j → mi < row.length →
    mv = row.getD mi 0 → (∀ k, k < j → row.getD k 0 ≤ mv) →
    (∀ k, k < mi → row.getD k 0 < mv) →
    predictGo vs j mv mi < row.length ∧
    (∀ k, k < row.length → row.getD k 0 ≤ row.getD (predictGo vs j mv mi) 0) ∧
    (∀ k, k < predictGo vs j mv mi →
      row.getD k 0 < row.getD (predictGo vs j mv mi) 0) := by
  intro vs
  induction vs with
  | nil =>
    intro j mv mi hdrop hmij hmi hmv hle hlt
    have hlen : row.length ≤ j := List.drop_eq_nil_iff.mp hdrop
    simp only [predictGo]
    refine ⟨hmi, fun k hk => ?_, fun k hk => ?_⟩
    · rw [← hmv]; exact hle k (lt_of_lt_of_le hk hlen)
    · rw [← hmv]; exact hlt k hk
  | cons v vs' ih =>
    intro j mv mi hdrop hmij hmi hmv hle hlt
    have hjv : row[j]? = some v := by
      have h0 : (row.drop j)[0]? = row[j]? := by
        rw [List.getElem?_drop, Nat.add_zero]
      rw [hdrop] at h0
      simpa using h0.symm
    obtain ⟨hj, hval⟩ := List.getElem?_eq_some.mp hjv
    have hgv : row.getD j 0 = v := by rw [List.getD_eq_getElem _ _ hj, hval]
    have hdrop' : row.drop (j + 1) = vs' := by
      have := List.drop_drop 1 j row
      rw [hdrop] at this
      simpa using this.symm
    simp only [predictGo]
    by_cases hc : v > mv
    · rw [if_pos hc]
      refine ih (j + 1) v j hdrop' (Nat.le_succ j) hj hgv.symm ?_ ?_
      · intro k hk
        rcases Nat.lt_succ_iff_lt_or_eq.mp hk with hk' | rfl
        · exact le_of_lt (lt_of_le_of_lt (hle k hk') hc)
        · rw [hgv]
      · intro k hk
        exact lt_of_le_of_lt (hle k hk) hc
    · rw [if_neg hc]
      refine ih (j + 1) mv mi hdrop' (le_trans hmij (Nat.le_succ j)) hmi hmv ?_ hlt
      intro k hk
      rcases Nat.lt_succ_iff_lt_or_eq.mp hk with hk' | rfl
      · exact hle k hk'
      · rw [hgv]; exact not_lt.mp hc

theorem predictRow_spec {row : List ℚ} (h : row ≠ []) :
    ∃ p, predictRow row = some p ∧ p < row.length ∧
      (∀ k, k < row.length → row.getD k 0 ≤ row.getD p 0) ∧
      (∀ k, k < p → row.getD k 0 < row.getD p 0) := by
  cases row with
  | nil => exact absurd rfl h
  | cons v vs =>
    refine ⟨predictGo (v :: vs) 0 v 0, rfl, ?_⟩
    exact predictGo_spec (v :: vs) (v :: vs) 0 v 0 rfl (le_refl 0)
      (by simp) rfl (by omega) (by omega)

/-- Claim C9: for every output matrix whose rows are all non-empty,
`predict` completes and returns, for each row, the column index of the
row's maximum value, with ties broken by the first occurrence: the
returned index is in range, no entry exceeds the entry there, and every
earlier entry is strictly smaller. -/
theorem predict_argmax (out : Mat) (h : ∀ r ∈ out, r ≠ []) :
    ∃ res, predict out = some res ∧ res.length = out.length ∧
      ∀ i, i < out.length →
        res.getD i 0 < (out.getD i []).length ∧
        (∀ k, k < (out.getD i []).length →
          (out.getD i []).getD k 0 ≤ (out.getD i []).getD (res.getD i 0) 0) ∧
        (∀ k, k < res.getD i 0 →
          (out.getD i []).getD k 0 < (out.getD i []).getD (res.getD i 0) 0) := by
  have hres : predict out =
      some (out.map (fun row => predictGo row 0 (row.headD 0) 0)) := by
    apply mapOpt_eq_some_map
    intro r hr
    cases hr' : r with
    | nil => exact absurd hr' (h r hr)
    | cons v vs => rfl
  refine ⟨_, hres, List.length_map out _, fun i hi => ?_⟩
  have hrow : out.getD i [] = out[i] := List.getD_eq_getElem out [] hi
  have hmem : out[i] ∈ out := List.getElem_mem hi
  have hne : out[i] ≠ [] := h _ hmem
  obtain ⟨p, hp, hplt, hple, hplt'⟩ := predictRow_spec hne
  have hgi : (out.map (fun row => predictGo row 0 (row.headD 0) 0)).getD i 0 =
      predictGo out[i] 0 (out[i].headD 0) 0 := by
    rw [List.getD_eq_getElem _ _ (by simpa using hi), List.getElem_map]
  have hpe : p = predictGo out[i] 0 (out[i].headD 0) 0 := by
    obtain ⟨v, vs, hcons⟩ := List.exists_cons_of_ne_nil hne
    rw [hcons] at hp ⊢
    simp only [predictRow, Option.some.injEq] at hp
    rw [← hp]
    rfl
  rw [hrow, hgi, ← hpe]
  exact ⟨hplt, hple, hplt'⟩

theorem predict_argmax_witness :
    predict [[0, 0, 1, 0, 0, 0, 0, 0, 0]] = some [2] ∧
    (∃ res, predict [[0, 0, 1, 0, 0, 0, 0, 0, 0]] = some res ∧
      res.length = ([[0, 0, 1, 0, 0, 0, 0, 0, 0]] : Mat).length ∧
      ∀ i, i < ([[0, 0, 1, 0, 0, 0, 0, 0, 0]] : Mat).length →
        res.getD i 0 <
          (([[0, 0, 1, 0, 0, 0, 0, 0, 0]] : Mat).getD i []).length ∧
        (∀ k, k < (([[0, 0, 1, 0, 0, 0, 0, 0, 0]] : Mat).getD i []).length →
          (([[0, 0, 1, 0, 0, 0, 0, 0, 0]] : Mat).getD i []).getD k 0 ≤
            (([[0, 0, 1, 0, 0, 0, 0, 0, 0]] : Mat).getD i []).getD
              (res.getD i 0) 0) ∧
        (∀ k, k < res.getD i 0 →
          (([[0, 0, 1, 0, 0, 0, 0, 0, 0]] : Mat).getD i []).getD k 0 <
            (([[0, 0, 1, 0, 0, 0, 0, 0, 0]] : Mat).getD i []).getD
              (res.getD i 0) 0)) := by
  constructor
  · with_unfolding_all rfl
  · refine predict_argmax [[0, 0, 1, 0, 0, 0, 0, 0, 0]] ?_
    intro r hr
    simp only [List.mem_singleton] at hr
    subst hr
    simp

theorem range_map_getD (r : List ℚ) :
    (List.range r.length).map (fun j => r.getD j 0) = r := by
  apply List.ext_getElem?
  intro k
  rw [List.getElem?_map]
  by_cases hk : k < r.length
  · rw [List.getElem?_range hk, List.getElem?_eq_getElem hk]
    simp only [Option.map_some', Option.some.injEq]
    exact List.getD_eq_getElem r 0 hk
  · rw [List.getElem?_eq_none (by simpa using not_lt.mp hk),
      List.getElem?_eq_none (not_lt.mp hk)]
    rfl

theorem transpose_rect {m : Mat} {c : ℕ} (hne : m ≠ []) (hc : 0 < c)
    (hrect : ∀ r ∈ m, r.length = c) :
    transpose m =
      some ((List.range c).map (fun j => m.map (fun r => r.getD j 0))) := by
  obtain ⟨m0, ms, rfl⟩ := List.exists_cons_of_ne_nil hne
  have hm0 : m0.length = c := hrect m0 (List.mem_cons_self m0 ms)
  have hall : (m0 :: ms).all (fun r => m0.length ≤ r.length) = true := by
    rw [List.all_eq_true]
    intro r hr
    simp [hrect r hr, hm0]
  show (if m0.length = 0 then some [] else
    if (m0 :: ms).all (fun r => m0.length ≤ r.length) then
      some ((List.range m0.length).map
        (fun j => (m0 :: ms).map (fun r => r.getD j 0)))
    else none) = _
  rw [if_neg (by omega), if_pos hall, hm0]

/-- Claim C10: for every non-empty rectangular matrix (a non-zero number
of rows, all rows of one positive length), transposing twice with
`HimNetwork::transpose` completes and returns the original matrix
exactly. -/
theorem transpose_transpose_id (m : Mat) (c : ℕ) (hne : m ≠ []) (hc : 0 < c)
    (hrect : ∀ r ∈ m, r.length = c) : (transpose m).bind transpose = some m := by
  rw [transpose_rect hne hc hrect, Option.some_bind]
  have htne : (List.range c).map (fun j => m.map (fun r => r.getD j 0)) ≠ [] := by
    intro hnil
    rw [List.map_eq_nil_iff, List.range_eq_nil] at hnil
    omega
  have hmpos : 0 < m.length := List.length_pos.mpr hne
  have htrect : ∀ tr ∈ (List.range c).map (fun j => m.map (fun r => r.getD j 0)),
      tr.length = m.length := by
    intro tr htr
    obtain ⟨j, _, rfl⟩ := List.mem_map.mp htr
    exact List.length_map m _
  rw [transpose_rect htne hmpos htrect]
  congr 1
  apply List.ext_getElem?
  intro n
  rw [List.getElem?_map]
  by_cases hn : n < m.length
  · rw [List.getElem?_range hn, List.getElem?_eq_getElem hn]
    simp only [Option.map_some', Option.some.injEq]
    rw [List.map_map]
    have hc' : m[n].length = c := hrect m[n] (List.getElem_mem hn)
    have hcg : ∀ j ∈ List.range c,
        ((fun tr => tr.getD n 0) ∘ fun j => m.map (fun r => r.getD j 0)) j =
          m[n].getD j 0 := by
      intro j _
      simp only [Function.comp]
      rw [List.getD_eq_getElem _ _ (by simpa using hn), List.getElem_map]
    rw [List.map_congr_left hcg, ← hc', range_map_getD]
  · rw [List.getElem?_eq_none (by simpa using not_lt.mp hn),
      List.getElem?_eq_none (not_lt.mp hn)]
    rfl

theorem transpose_transpose_id_witness :
    ([[1, 2], [3, 4]] : Mat) ≠ [] ∧ 0 < 2 ∧
    (∀ r ∈ ([[1, 2], [3, 4]] : Mat), r.length = 2) ∧
    (transpose [[1, 2], [3, 4]]).bind transpose = some [[1, 2], [3, 4]] := by
  refine ⟨by simp, by omega, ?_, ?_⟩
  · intro r hr
    rcases List.mem_cons.mp hr with rfl | hr'
    · rfl
    · rcases List.mem_cons.mp hr' with rfl | hr''
      · rfl
      · simp at hr''
  · refine transpose_transpose_id [[1, 2], [3, 4]] 2 (by simp) (by omega) ?_
    intro r hr
    rcases List.mem_cons.mp hr with rfl | hr'
    · rfl
    · rcases List.mem_cons.mp hr' with rfl | hr''
      · rfl
      · simp at hr''
